import Mathlib

/-!
Verification development for the sofia-mvp RAG core.

We shallowly embed the TypeScript/SQL logic of the repository:

* the fixed-window chunker `chunkText` (JS strings modelled as `List Char`,
  the `while` loop modelled with explicit fuel so that non-termination of the
  source loop is expressible);
* the ingestion routine `ingest` with its 3-attempt retry loop and exponential
  backoff, parameterized by an oracle giving the outcome of each embedding
  call and of each storage write (the single multi-row `INSERT` issued by the
  code is executed atomically by PostgreSQL, so a failed write leaves the
  store unchanged);
* the retrieval query (`WHERE similarity > 0.3`, `ORDER BY similarity
  DESC`, `LIMIT 4`) over an abstract store of rows that already carry their
  query similarity score (the cosine computation is done by the database
  engine and is opaque to the repository code).  The bare `ORDER BY`, which
  has no secondary sort key, is modelled by the relation `IsQueryResult` of
  all outputs PostgreSQL may return; the deterministic stable realisation
  `findRelevantContent` is used only for conclusions that are insensitive to
  the order of equal-similarity rows;
* the `conversations` / `messages` schema with its
  `ON DELETE CASCADE` foreign key, as a small relational transition system.
-/

namespace Sofia

/-- Whitespace test used by JavaScript's `String.prototype.trim`;
we model the code points that can actually occur in the texts of interest
(ASCII whitespace and NBSP). -/
def isJsWhitespace (c : Char) : Bool :=
  c = ' ' || c = '\t' || c = '\n' || c = '\r' ||
  c = Char.ofNat 11 || c = Char.ofNat 12 || c = Char.ofNat 160

/-- Model of JS `String.prototype.trimStart` on a list of characters. -/
def trimStart (l : List Char) : List Char :=
  l.dropWhile isJsWhitespace

/-- Model of JS `String.prototype.trimEnd` on a list of characters. -/
def trimEnd (l : List Char) : List Char :=
  (l.reverse.dropWhile isJsWhitespace).reverse

/-- Model of JS `String.prototype.trim`: strip leading and trailing
whitespace. -/
def jsTrim (l : List Char) : List Char :=
  trimEnd (trimStart l)

/-- Model of JS `String.prototype.slice(start, stop)`: negative indices count
from the end, and both endpoints are clamped to `[0, length]`. -/
def jsSlice (l : List Char) (start stop : Int) : List Char :=
  let len : Int := l.length
  let s : Int := if start < 0 then max (len + start) 0 else min start len
  let e : Int := if stop < 0 then max (len + stop) 0 else min stop len
  (l.drop s.toNat).take (e - s).toNat

/-- The body of `chunkText`'s `while (i < text.length)` loop
(`src/unnamed/part_000`, lines 130-139), with explicit fuel.  Each iteration
pushes `text.slice(i, i + size).trim()` and advances `i` by `size - overlap`
(an integer, as in JS, so the step can be zero or negative).  `none` means the
fuel ran out with the loop still running. -/
def chunkLoopFuel (fuel : Nat) (text : List Char) (size overlap : Nat)
    (i : Int) (acc : List (List Char)) : Option (List (List Char)) :=
  match fuel with
  | 0 => none
  | fuel + 1 =>
    if i < (text.length : Int) then
      chunkLoopFuel fuel text size overlap (i + ((size : Int) - (overlap : Int)))
        (acc ++ [jsTrim (jsSlice text i (i + (size : Int)))])
    else
      some acc

/-- `chunkText` run with the given fuel: the loop from `i = 0` followed by the
source's `chunks.filter(Boolean)` (which removes exactly the empty strings). -/
def chunkTextFuel (fuel : Nat) (text : List Char) (size overlap : Nat) :
    Option (List (List Char)) :=
  (chunkLoopFuel fuel text size overlap 0 []).map (List.filter (fun c => c ≠ []))

/-- Model of `chunkText(text, size = 900, overlap = 100)`.  When
`overlap < size` the loop performs at most `text.length` iterations, so
`text.length + 1` units of fuel always suffice; for `overlap ≥ size` the
source loop never terminates and the `[]` default is a modelling artifact
never relied upon. -/
def chunkText (text : List Char) (size overlap : Nat) : List (List Char) :=
  (chunkTextFuel (text.length + 1) text size overlap).getD []

/-- Number of loop iterations of `chunkText` on input of length `L` with step
`d = size - overlap`: the ceiling of `L / d`. -/
def numWindows (L d : Nat) : Nat :=
  (L + d - 1) / d

/-- The window of length at most `size` starting at character `i`. -/
def winAt (text : List Char) (size i : Nat) : List Char :=
  (text.drop i).take size

/-- The untrimmed windows produced from position `i` onward with step `d`. -/
def windowsFrom (text : List Char) (size d i : Nat) : List (List Char) :=
  (List.range (numWindows (text.length - i) d)).map
    (fun j => winAt text size (i + j * d))

/-- All untrimmed windows of the chunker: positions `0, d, 2d, ...` with
`d = size - overlap`. -/
def windows (text : List Char) (size overlap : Nat) : List (List Char) :=
  windowsFrom text size (size - overlap) 0

end Sofia

namespace Sofia

lemma chunkLoopFuel_eq_none (text : List Char) (size overlap : Nat)
    (hso : size ≤ overlap) (htext : 0 < text.length) :
    ∀ (fuel : Nat) (i : Int) (acc : List (List Char)), i ≤ 0 →
      chunkLoopFuel fuel text size overlap i acc = none := by
  intro fuel
  induction fuel with
  | zero => intro i acc _; rfl
  | succ n ih =>
    intro i acc hi
    have hl : (0 : Int) < (text.length : Int) := by exact_mod_cast htext
    have hlt : i < (text.length : Int) := by omega
    have hstep : (size : Int) - (overlap : Int) ≤ 0 := by
      have h2 : (size : Int) ≤ (overlap : Int) := by exact_mod_cast hso
      omega
    rw [chunkLoopFuel, if_pos hlt]
    exact ih _ _ (by omega)

/-- C1: the spec requires the chunking operation to reject `overlap ≥ size`
with a parameter-validation error before the splitting loop.  The source
(`chunkText`, `src/unnamed/part_000` lines 130-139) performs no validation at
all, and for `overlap ≥ size` its loop index never advances past `0`, so the
`while` loop never terminates: no amount of fuel makes the loop return. -/
theorem chunkText_diverges_when_overlap_ge_size (fuel : Nat) (text : List Char)
    (size overlap : Nat) (hso : size ≤ overlap) (htext : 0 < text.length) :
    chunkTextFuel fuel text size overlap = none := by
  unfold chunkTextFuel
  rw [chunkLoopFuel_eq_none text size overlap hso htext fuel 0 [] (le_refl 0)]
  rfl

/-- Witness for C1 at `chunkText("ab", 1, 1)` with 37 units of fuel. -/
theorem chunkText_diverges_witness :
    (1 : Nat) ≤ 1 ∧ 0 < ("ab".toList).length ∧
      chunkTextFuel 37 ("ab".toList) 1 1 = none :=
  ⟨by decide, by decide,
    chunkText_diverges_when_overlap_ge_size 37 ("ab".toList) 1 1
      (by decide) (by decide)⟩

lemma jsSlice_eq_winAt (l : List Char) (size i : Nat) :
    jsSlice l (i : Int) ((i : Int) + (size : Int)) = winAt l size i := by
  have h0 : ¬ ((i : Int) < 0) := by omega
  have h1 : ¬ ((i : Int) + (size : Int) < 0) := by omega
  simp only [jsSlice, if_neg h0, if_neg h1]
  by_cases hi : i < l.length
  · have hc : (i : Int) < (l.length : Int) := by exact_mod_cast hi
    have hs : min (i : Int) (l.length : Int) = (i : Int) := by omega
    by_cases he : (i : Int) + (size : Int) ≤ (l.length : Int)
    · have hm : min ((i : Int) + (size : Int)) (l.length : Int) =
          (i : Int) + (size : Int) := by omega
      rw [hs, hm]
      have h2 : ((i : Int) + (size : Int) - (i : Int)).toNat = size := by omega
      have h3 : ((i : Int)).toNat = i := by omega
      rw [h2, h3, winAt]
    · have hm : min ((i : Int) + (size : Int)) (l.length : Int) =
          (l.length : Int) := by omega
      rw [hs, hm]
      have h2 : ((l.length : Int) - (i : Int)).toNat = l.length - i := by omega
      have h3 : ((i : Int)).toNat = i := by omega
      rw [h2, h3, winAt]
      rw [List.take_of_length_le (by simp), List.take_of_length_le]
      simp
      omega
  · have hc : ¬ ((i : Int) < (l.length : Int)) := by
      simp only [not_lt] at hi ⊢
      exact_mod_cast hi
    have hs : min (i : Int) (l.length : Int) = (l.length : Int) := by omega
    have hm : min ((i : Int) + (size : Int)) (l.length : Int) =
        (l.length : Int) := by omega
    rw [hs, hm, winAt]
    have h2 : l.drop i = [] := List.drop_eq_nil_of_le (by omega)
    rw [h2]
    simp

lemma numWindows_zero (d : Nat) : numWindows 0 d = 0 := by
  unfold numWindows
  rcases Nat.eq_zero_or_pos d with h | h
  · rw [h]
  · exact Nat.div_eq_of_lt (by omega)

lemma numWindows_succ (m d : Nat) (hd : 0 < d) (hm : 0 < m) :
    numWindows m d = numWindows (m - d) d + 1 := by
  unfold numWindows
  by_cases h : m ≤ d
  · have h1 : m - d = 0 := by omega
    rw [h1]
    have h2 : (0 + d - 1) / d = 0 := Nat.div_eq_of_lt (by omega)
    rw [h2]
    exact Nat.div_eq_of_lt_le (by omega) (by omega)
  · have h1 : m + d - 1 = (m - d + d - 1) + d := by omega
    rw [h1, Nat.add_div_right _ hd]

lemma windowsFrom_cons (text : List Char) (size d i : Nat) (hd : 0 < d)
    (hi : i < text.length) :
    windowsFrom text size d i =
      winAt text size i :: windowsFrom text size d (i + d) := by
  unfold windowsFrom
  have hm : 0 < text.length - i := by omega
  rw [numWindows_succ _ _ hd hm]
  have hsub : text.length - i - d = text.length - (i + d) := by omega
  rw [hsub, List.range_succ_eq_map, List.map_cons, List.map_map]
  congr 1
  · rw [Nat.zero_mul, Nat.add_zero]
  · apply List.map_congr_left
    intro j hj
    simp only [Function.comp_apply, Nat.succ_eq_add_one]
    congr 1
    ring

lemma chunkLoopFuel_eq_some (text : List Char) (size overlap : Nat)
    (h : overlap < size) :
    ∀ (fuel i : Nat) (acc : List (List Char)), text.length - i < fuel →
      chunkLoopFuel fuel text size overlap (i : Int) acc =
        some (acc ++ (windowsFrom text size (size - overlap) i).map jsTrim) := by
  intro fuel
  induction fuel with
  | zero => intro i acc hfuel; exact absurd hfuel (by omega)
  | succ n ih =>
    intro i acc hfuel
    by_cases hi : i < text.length
    · have hlt : (i : Int) < (text.length : Int) := by exact_mod_cast hi
      rw [chunkLoopFuel, if_pos hlt]
      have hstep : (i : Int) + ((size : Int) - (overlap : Int)) =
          ((i + (size - overlap) : Nat) : Int) := by
        push_cast [Nat.sub_add_cancel]
        omega
      rw [jsSlice_eq_winAt, hstep, ih (i + (size - overlap)) _ (by omega)]
      rw [windowsFrom_cons text size (size - overlap) i (by omega) hi]
      simp

    · have hlt : ¬ ((i : Int) < (text.length : Int)) := by
        simp only [not_lt] at hi ⊢
        exact_mod_cast hi
      rw [chunkLoopFuel, if_neg hlt]
      have hz : text.length - i = 0 := by omega
      unfold windowsFrom
      rw [hz, numWindows_zero]
      simp

lemma chunkText_eq_windows_trim (text : List Char) (size overlap : Nat)
    (h : overlap < size) :
    chunkText text size overlap =
      ((windows text size overlap).map jsTrim).filter (fun c => c ≠ []) := by
  unfold chunkText chunkTextFuel windows
  have h0 := chunkLoopFuel_eq_some text size overlap h (text.length + 1) 0 []
    (by omega)
  rw [Nat.cast_zero] at h0
  rw [h0]
  simp

lemma mul_lt_of_lt_numWindows (L d j : Nat) (hd : 0 < d)
    (hj : j < numWindows L d) : j * d < L := by
  unfold numWindows at hj
  have h2 : (j + 1) * d ≤ L + d - 1 := (Nat.le_div_iff_mul_le hd).mp hj
  rw [Nat.succ_mul] at h2
  generalize j * d = m at h2 ⊢
  omega

lemma winAt_ne_nil (text : List Char) (size i : Nat) (hs : 0 < size)
    (hi : i < text.length) : winAt text size i ≠ [] := by
  apply List.ne_nil_of_length_pos
  unfold winAt
  simp only [List.length_take, List.length_drop]
  omega

lemma mem_windows_iff (text : List Char) (size overlap : Nat)
    (w : List Char) :
    w ∈ windows text size overlap ↔
      ∃ j, j < numWindows text.length (size - overlap) ∧
        w = winAt text size (j * (size - overlap)) := by
  unfold windows windowsFrom
  simp only [List.mem_map, List.mem_range, Nat.sub_zero, Nat.zero_add]
  constructor
  · rintro ⟨j, hj, hw⟩
    exact ⟨j, hj, hw.symm⟩
  · rintro ⟨j, hj, hw⟩
    exact ⟨j, hj, hw.symm⟩

/-- The reassembly operator of spec §8: concatenate the chunks after keeping
only the first `size - overlap` characters of each chunk except the last
(dropping each non-final chunk's overlapping suffix). -/
def reassemble (d : Nat) : List (List Char) → List Char
  | [] => []
  | [c] => c
  | c :: c2 :: rest => c.take d ++ reassemble d (c2 :: rest)

lemma reassemble_windowsFrom (text : List Char) (size d : Nat) (hd : 0 < d)
    (hds : d ≤ size) :
    ∀ (k i : Nat), text.length - i ≤ k → i < text.length →
      reassemble d (windowsFrom text size d i) = text.drop i := by
  intro k
  induction k with
  | zero => intro i hk hi; omega
  | succ n ih =>
    intro i hk hi
    rw [windowsFrom_cons text size d i hd hi]
    by_cases hnext : i + d < text.length
    · rw [windowsFrom_cons text size d (i + d) hd hnext]
      rw [reassemble]
      rw [← windowsFrom_cons text size d (i + d) hd hnext]
      rw [ih (i + d) (by omega) hnext]
      unfold winAt
      rw [List.take_take, min_eq_left hds]
      have hdd : text.drop (i + d) = (text.drop i).drop d := by
        rw [List.drop_drop]
      rw [hdd, List.take_append_drop]
    · have hnil : windowsFrom text size d (i + d) = [] := by
        unfold windowsFrom
        have hz : text.length - (i + d) = 0 := by omega
        rw [hz, numWindows_zero]
        rfl
      rw [hnil, reassemble]
      unfold winAt
      apply List.take_of_length_le
      simp only [List.length_drop]
      omega

/-- C4 counterexample: at `chunkText("ab cd", 3, 1)` reassembly does not
reconstruct the input, because each window is trimmed before being returned
(the produced chunks are `["ab", "cd", "d"]` and reassembly yields
`"abcdd"`, not `"ab cd"`). -/
theorem chunkText_reassembly_fails :
    reassemble (3 - 1) (chunkText ("ab cd".toList) 3 1) ≠ "ab cd".toList := by
  decide

/-- C4 (amended): for `overlap < size` and inputs on which trimming is the
identity on every window (no window carries leading or trailing whitespace),
`chunkText` returns exactly the untrimmed windows: there are
`⌈L / (size - overlap)⌉` of them, chunk `j` is the window starting at
character `j * (size - overlap)` (so each chunk after the first starts
`size - overlap` characters after the previous chunk's start), every chunk is
a non-empty substring, and reassembly reconstructs the input exactly.  On
general inputs the per-window `trim()` can make exact reconstruction fail, as
the counterexample shows. -/
theorem chunkText_window_structure (text : List Char) (size overlap : Nat)
    (h1 : overlap < size) (h2 : 0 < text.length)
    (h3 : ∀ w ∈ windows text size overlap, jsTrim w = w) :
    chunkText text size overlap = windows text size overlap ∧
    (chunkText text size overlap).length =
      (text.length + (size - overlap) - 1) / (size - overlap) ∧
    (∀ j (hj : j < (chunkText text size overlap).length),
      (chunkText text size overlap).get ⟨j, hj⟩ =
        winAt text size (j * (size - overlap))) ∧
    (∀ c ∈ chunkText text size overlap, c ≠ []) ∧
    reassemble (size - overlap) (chunkText text size overlap) = text := by
  have hwne : ∀ w ∈ windows text size overlap, w ≠ [] := by
    intro w hw
    rcases (mem_windows_iff text size overlap w).mp hw with ⟨j, hj, hwj⟩
    rw [hwj]
    exact winAt_ne_nil text size _ (by omega)
      (mul_lt_of_lt_numWindows text.length (size - overlap) j (by omega) hj)
  have heq : chunkText text size overlap = windows text size overlap := by
    rw [chunkText_eq_windows_trim text size overlap h1]
    have hmap : (windows text size overlap).map jsTrim =
        windows text size overlap := by
      rw [List.map_congr_left h3]
      exact List.map_id' _
    rw [hmap]
    apply List.filter_eq_self.mpr
    intro w hw
    simpa using hwne w hw
  refine ⟨heq, ?_, ?_, ?_, ?_⟩
  · rw [heq]
    unfold windows windowsFrom numWindows
    simp
  · intro j hj
    rw [List.get_of_eq heq ⟨j, hj⟩]
    unfold windows windowsFrom
    simp only [List.get_eq_getElem, List.getElem_map, List.getElem_range,
      Nat.zero_add]
  · intro c hc
    rw [heq] at hc
    exact hwne c hc
  · rw [heq]
    unfold windows
    rw [reassemble_windowsFrom text size (size - overlap) (by omega) (by omega)
      text.length 0 (by omega) h2]
    rfl

/-- Witness for the amended C4 at `chunkText("abcd", 3, 1)`. -/
theorem chunkText_window_structure_witness :
    (1 : Nat) < 3 ∧ 0 < ("abcd".toList).length ∧
      (∀ w ∈ windows ("abcd".toList) 3 1, jsTrim w = w) ∧
      (chunkText ("abcd".toList) 3 1 = windows ("abcd".toList) 3 1 ∧
        reassemble (3 - 1) (chunkText ("abcd".toList) 3 1) = "abcd".toList) :=
  ⟨by decide, by decide, by decide,
    (chunkText_window_structure ("abcd".toList) 3 1 (by decide) (by decide)
      (by decide)).1,
    (chunkText_window_structure ("abcd".toList) 3 1 (by decide) (by decide)
      (by decide)).2.2.2.2⟩

lemma head?_dropWhile_not (p : Char → Bool) (l : List Char) :
    ∀ c, (l.dropWhile p).head? = some c → p c = false := by
  induction l with
  | nil => intro c h; exact Option.noConfusion h
  | cons x xs ih =>
    intro c h
    by_cases hx : p x
    · rw [List.dropWhile_cons, if_pos hx] at h
      exact ih c h
    · rw [List.dropWhile_cons, if_neg hx] at h
      have hcx : x = c := by
        simpa using h
      rw [← hcx]
      simpa using hx

lemma dropWhile_idem (p : Char → Bool) (l : List Char) :
    (l.dropWhile p).dropWhile p = l.dropWhile p := by
  cases h : l.dropWhile p with
  | nil => rfl
  | cons c rest =>
    have hc : p c = false := head?_dropWhile_not p l c (by rw [h]; rfl)
    rw [List.dropWhile_cons, hc]
    simp

lemma trimEnd_idem (l : List Char) : trimEnd (trimEnd l) = trimEnd l := by
  unfold trimEnd
  rw [List.reverse_reverse, dropWhile_idem]

lemma trimEnd_append_exists (l : List Char) : ∃ t, l = trimEnd l ++ t := by
  refine ⟨(l.reverse.takeWhile isJsWhitespace).reverse, ?_⟩
  rw [trimEnd, ← List.reverse_append, List.takeWhile_append_dropWhile,
    List.reverse_reverse]

lemma head?_trimEnd (l : List Char) (c : Char) (h : (trimEnd l).head? = some c) :
    l.head? = some c := by
  rcases trimEnd_append_exists l with ⟨t, ht⟩
  cases he : trimEnd l with
  | nil => rw [he] at h; exact Option.noConfusion h
  | cons x rest =>
    rw [he] at h ht
    have hx : x = c := by simpa using h
    rw [ht, ← hx]
    rfl

lemma getLast?_trimEnd_not (l : List Char) (c : Char)
    (h : (trimEnd l).getLast? = some c) : isJsWhitespace c = false := by
  unfold trimEnd at h
  rw [List.getLast?_reverse] at h
  exact head?_dropWhile_not isJsWhitespace l.reverse c h

lemma trimStart_of_head_not (l : List Char)
    (h : ∀ c, l.head? = some c → isJsWhitespace c = false) :
    trimStart l = l := by
  cases l with
  | nil => rfl
  | cons x xs =>
    have hx : isJsWhitespace x = false := h x rfl
    rw [trimStart, List.dropWhile_cons, hx]
    simp

lemma head?_jsTrim_not (l : List Char) (c : Char)
    (h : (jsTrim l).head? = some c) : isJsWhitespace c = false := by
  unfold jsTrim at h
  have h2 : (trimStart l).head? = some c := head?_trimEnd _ c h
  exact head?_dropWhile_not isJsWhitespace l c h2

lemma jsTrim_idem (l : List Char) : jsTrim (jsTrim l) = jsTrim l := by
  unfold jsTrim
  have hstart : trimStart (trimEnd (trimStart l)) = trimEnd (trimStart l) := by
    apply trimStart_of_head_not
    intro c hc
    have h2 : (trimStart l).head? = some c := head?_trimEnd _ c hc
    exact head?_dropWhile_not isJsWhitespace l c h2
  rw [hstart, trimEnd_idem]

lemma jsTrim_eq_nil_of_all_ws (w : List Char)
    (h : ∀ ch ∈ w, isJsWhitespace ch = true) : jsTrim w = [] := by
  unfold jsTrim trimStart
  rw [List.dropWhile_eq_nil_iff.mpr h]
  rfl

lemma mem_chunkLoopFuel (text : List Char) (size overlap : Nat) :
    ∀ (fuel : Nat) (i : Int) (acc r : List (List Char)),
      chunkLoopFuel fuel text size overlap i acc = some r → ∀ c ∈ r,
        c ∈ acc ∨ ∃ j : Int, c = jsTrim (jsSlice text j (j + (size : Int))) := by
  intro fuel
  induction fuel with
  | zero => intro i acc r h; exact Option.noConfusion h
  | succ n ih =>
    intro i acc r h c hc
    by_cases hi : i < (text.length : Int)
    · rw [chunkLoopFuel, if_pos hi] at h
      rcases ih _ _ r h c hc with hmem | hex
      · rcases List.mem_append.mp hmem with hacc | hnew
        · exact Or.inl hacc
        · refine Or.inr ⟨i, ?_⟩
          simpa using hnew
      · exact Or.inr hex
    · rw [chunkLoopFuel, if_neg hi] at h
      have hr : r = acc := by
        have := h
        simpa using this.symm
      rw [hr] at hc
      exact Or.inl hc

lemma mem_chunkText (text : List Char) (size overlap : Nat) (c : List Char)
    (hc : c ∈ chunkText text size overlap) :
    c ≠ [] ∧ ∃ j : Int, c = jsTrim (jsSlice text j (j + (size : Int))) := by
  unfold chunkText chunkTextFuel at hc
  cases h : chunkLoopFuel (text.length + 1) text size overlap 0 [] with
  | none => rw [h] at hc; exact absurd hc (by simp)
  | some r =>
    rw [h] at hc
    have hc2 : c ∈ r.filter (fun c => c ≠ []) := hc
    have hne : c ≠ [] := by
      have := List.of_mem_filter hc2
      simpa using this
    have hmem : c ∈ r := List.mem_of_mem_filter hc2
    rcases mem_chunkLoopFuel text size overlap _ _ _ r h c hmem with habs | hex
    · exact absurd habs (by simp)
    · exact ⟨hne, hex⟩

/-- C9: every chunk produced by `chunkText` is the `trim()` of a window slice
of the input, trimming is the identity on it, and it neither begins nor ends
with whitespace. -/
theorem chunkText_output_trimmed (text : List Char) (size overlap : Nat)
    (c : List Char) (hc : c ∈ chunkText text size overlap) :
    (∃ start : Int, c = jsTrim (jsSlice text start (start + (size : Int)))) ∧
    jsTrim c = c ∧
    (∀ ch, c.head? = some ch → isJsWhitespace ch = false) ∧
    (∀ ch, c.getLast? = some ch → isJsWhitespace ch = false) := by
  rcases mem_chunkText text size overlap c hc with ⟨hne, j, hj⟩
  have hfix : jsTrim c = c := by
    rw [hj, jsTrim_idem]
  refine ⟨⟨j, hj⟩, hfix, ?_, ?_⟩
  · intro ch hch
    rw [← hfix] at hch
    exact head?_jsTrim_not c ch hch
  · intro ch hch
    rw [← hfix] at hch
    unfold jsTrim at hch
    exact getLast?_trimEnd_not _ ch hch

/-- Witness for C9 at `chunkText("  ab ", 900, 100)`, whose single chunk is
`"ab"`. -/
theorem chunkText_output_trimmed_witness :
    ("ab".toList ∈ chunkText ("  ab ".toList) 900 100) ∧
      jsTrim ("ab".toList) = "ab".toList :=
  ⟨by decide,
    (chunkText_output_trimmed ("  ab ".toList) 900 100 "ab".toList
      (by decide)).2.1⟩

/-- Modelled from the spec: §4.1 requires that when discarding empty or
whitespace-only slices leaves zero chunks, the chunking operation fail with an
"empty input" error instead of succeeding with an empty result.  The source
`chunkText` has no error channel at all, so this spec-described variant is
stated separately for comparison. -/
def chunkTextSpecC7 (text : List Char) (size overlap : Nat) :
    Except String (List (List Char)) :=
  let cs := chunkText text size overlap
  if cs = [] then Except.error "empty input" else Except.ok cs

lemma jsSlice_subset (l : List Char) (a b : Int) :
    ∀ ch ∈ jsSlice l a b, ch ∈ l := by
  intro ch hch
  unfold jsSlice at hch
  have h1 := List.take_sublist _ _ |>.subset hch
  exact (List.drop_sublist _ _).subset h1

/-- C7 counterexample: on the whitespace-only input `"   "` the source
`chunkText` returns the empty list as an ordinary successful value, while the
spec-described operation fails with the "empty input" error. -/
theorem chunkText_empty_input_not_error :
    chunkText ("   ".toList) 900 100 = [] ∧
      Except.ok (chunkText ("   ".toList) 900 100) ≠
        chunkTextSpecC7 ("   ".toList) 900 100 := by
  refine ⟨by decide, ?_⟩
  intro h
  rw [show chunkTextSpecC7 ("   ".toList) 900 100 =
    Except.error "empty input" from rfl] at h
  exact Except.noConfusion h

/-- C7 (amended): empty and whitespace-only slices are indeed discarded from
the output — no produced chunk is empty, and a whitespace-only input produces
zero chunks — but in that case `chunkText` returns the empty list as a
normal successful result; no "empty input" error is raised (the function has
no error channel), as the counterexample records. -/
theorem chunkText_discards_empty_slices (text : List Char)
    (size overlap : Nat) :
    (∀ c ∈ chunkText text size overlap, c ≠ []) ∧
    ((∀ ch ∈ text, isJsWhitespace ch = true) →
      chunkText text size overlap = []) := by
  constructor
  · intro c hc
    exact (mem_chunkText text size overlap c hc).1
  · intro hws
    apply List.eq_nil_iff_forall_not_mem.mpr
    intro c hc
    rcases mem_chunkText text size overlap c hc with ⟨hne, j, hj⟩
    apply hne
    rw [hj]
    apply jsTrim_eq_nil_of_all_ws
    intro ch hch
    exact hws ch (jsSlice_subset text _ _ ch hch)

/-- Witness for the amended C7 at the whitespace-only input `"  "`. -/
theorem chunkText_discards_empty_slices_witness :
    (∀ ch ∈ ("  ".toList), isJsWhitespace ch = true) ∧
      chunkText ("  ".toList) 900 100 = [] :=
  ⟨by decide, (chunkText_discards_empty_slices ("  ".toList) 900 100).2
    (by decide)⟩

/-- A persisted chunk record, as built by `ingest` (`src/unnamed/part_000`,
lines 172-181): one row per chunk pairing content, embedding vector and
metadata.  Embedding vectors and the generated `nanoid()` identifiers are
opaque to the ingestion logic and are represented by abstract numeric
tokens. -/
structure EmbeddingRow where
  id : Nat
  resourceId : Nat
  content : List Char
  embedding : Nat
  title : Option (List Char)
  order : Option Nat
  sourceUrl : Option (List Char)
  deriving DecidableEq, Repr

/-- The row list built by `ingest`'s `chunks.map((content, idx) => ...)`:
`vec idx` is the embedding returned for chunk `idx` by `embedMany`,
`idGen idx` stands for the fresh `nanoid()` drawn for row `idx`, the title
and source URL fall back to `null`, and `order` is offset by the chunk index
when present (`order !== undefined ? order + idx : null`). -/
def mkRows (resourceId : Nat) (vec idGen : Nat → Nat)
    (title : Option (List Char)) (order : Option Nat)
    (sourceUrl : Option (List Char)) :
    Nat → List (List Char) → List EmbeddingRow
  | _, [] => []
  | idx, content :: rest =>
    ⟨idGen idx, resourceId, content, vec idx, title,
      order.map (fun o => o + idx), sourceUrl⟩ ::
      mkRows resourceId vec idGen title order sourceUrl (idx + 1) rest

/-- Environment oracle for one `ingest` call: for each attempt number,
`embed a` is the outcome of that attempt's `embedMany(chunks)` call
(`none` = the embedding service throws, `some vec` = it returns embedding
`vec idx` for chunk `idx`), and `insertOk a` tells whether the attempt's
storage write succeeds.  The write is the single multi-row
`db.insert(embeddings).values([...])` statement; PostgreSQL executes a single
`INSERT` atomically, so a failed write inserts nothing.  `idGen a idx` is the
`nanoid()` drawn for row `idx` on attempt `a`. -/
structure IngestOracle where
  embed : Nat → Option (Nat → Nat)
  insertOk : Nat → Bool
  idGen : Nat → Nat → Nat

/-- Observable outcome of an `ingest` call: the returned value (`Except.ok
chunksInserted`) or the thrown error, the final state of the `embeddings`
table, and a trace of the effects (number of `embedMany` calls, number of
`INSERT` statements issued, and the backoff delays slept, in ms). -/
structure IngestOut where
  result : Except String Nat
  db : List EmbeddingRow
  embedCalls : Nat
  insertCalls : Nat
  delays : List Nat
  deriving Repr

/-- `maxAttempts` of `ingest`. -/
def maxAttempts : Nat := 3

/-- `baseDelayMs` of `ingest`. -/
def baseDelayMs : Nat := 1000

/-- The error thrown on the final failed attempt:
`Falha ao inserir embeddings após ${maxAttempts} tentativas` with
`maxAttempts = 3` interpolated. -/
def ingestFailureMsg : String := "Falha ao inserir embeddings após 3 tentativas"

/-- The `for (attempt = 1; attempt <= maxAttempts; attempt++)` retry loop of
`ingest` (`src/unnamed/part_000`, lines 168-195), recursing on the number of
remaining attempts.  The `try` block runs `embedMany(chunks)` and then the
single batch `INSERT`; the `catch` block catches any error from either, throws
`ingestFailureMsg` if `attempt === maxAttempts`, and otherwise sleeps
`baseDelayMs * 2^(attempt-1)` and retries.  The zero-fuel arm is unreachable
from `ingest`'s entry, mirroring the JS loop, which never falls through
(the final attempt either returns or throws). -/
def ingestLoop (o : IngestOracle) (resourceId : Nat)
    (chunks : List (List Char)) (title : Option (List Char))
    (order : Option Nat) (sourceUrl : Option (List Char)) :
    Nat → Nat → List EmbeddingRow → IngestOut
  | 0, _, db => ⟨Except.error "unreachable", db, 0, 0, []⟩
  | remaining + 1, attempt, db =>
    match o.embed attempt with
    | none =>
      if attempt = maxAttempts then
        ⟨Except.error ingestFailureMsg, db, 1, 0, []⟩
      else
        let rest := ingestLoop o resourceId chunks title order sourceUrl
          remaining (attempt + 1) db
        ⟨rest.result, rest.db, 1 + rest.embedCalls, rest.insertCalls,
          baseDelayMs * 2 ^ (attempt - 1) :: rest.delays⟩
    | some vec =>
      if o.insertOk attempt then
        ⟨Except.ok chunks.length,
          db ++ mkRows resourceId vec (o.idGen attempt) title order sourceUrl
            0 chunks,
          1, 1, []⟩
      else
        if attempt = maxAttempts then
          ⟨Except.error ingestFailureMsg, db, 1, 1, []⟩
        else
          let rest := ingestLoop o resourceId chunks title order sourceUrl
            remaining (attempt + 1) db
          ⟨rest.result, rest.db, 1 + rest.embedCalls, 1 + rest.insertCalls,
            baseDelayMs * 2 ^ (attempt - 1) :: rest.delays⟩

/-- Model of `ingest({resourceId, text, title, order, sourceUrl})`
(`src/unnamed/part_000`, lines 149-196): chunk the text with the default
parameters (`chunkText(text)`, size 900, overlap 100) and run the retry loop
from attempt 1 on the given initial table state. -/
def ingest (o : IngestOracle) (resourceId : Nat) (text : List Char)
    (title : Option (List Char)) (order : Option Nat)
    (sourceUrl : Option (List Char)) (db : List EmbeddingRow) : IngestOut :=
  ingestLoop o resourceId (chunkText text 900 100) title order sourceUrl
    maxAttempts 1 db

lemma mkRows_content (resourceId : Nat) (vec idGen : Nat → Nat)
    (title : Option (List Char)) (order : Option Nat)
    (sourceUrl : Option (List Char)) :
    ∀ (idx : Nat) (cs : List (List Char)),
      (mkRows resourceId vec idGen title order sourceUrl idx cs).map
        (fun r => r.content) = cs := by
  intro idx cs
  induction cs generalizing idx with
  | nil => rfl
  | cons c rest ih => simp [mkRows, ih]

lemma ingestLoop_atomic (o : IngestOracle) (resourceId : Nat)
    (chunks : List (List Char)) (title : Option (List Char))
    (order : Option Nat) (sourceUrl : Option (List Char)) :
    ∀ (remaining attempt : Nat) (db : List EmbeddingRow),
      (∃ e, (ingestLoop o resourceId chunks title order sourceUrl
          remaining attempt db).result = Except.error e ∧
        (ingestLoop o resourceId chunks title order sourceUrl
          remaining attempt db).db = db) ∨
      (∃ a vec, o.embed a = some vec ∧ o.insertOk a = true ∧
        (ingestLoop o resourceId chunks title order sourceUrl
          remaining attempt db).result = Except.ok chunks.length ∧
        (ingestLoop o resourceId chunks title order sourceUrl
          remaining attempt db).db =
          db ++ mkRows resourceId vec (o.idGen a) title order sourceUrl
            0 chunks) := by
  intro remaining
  induction remaining with
  | zero =>
    intro attempt db
    exact Or.inl ⟨"unreachable", rfl, rfl⟩
  | succ n ih =>
    intro attempt db
    cases he : o.embed attempt with
    | none =>
      by_cases hat : attempt = maxAttempts
      · subst hat
        left
        refine ⟨ingestFailureMsg, ?_, ?_⟩ <;>
          simp [ingestLoop, he]
      · rcases ih (attempt + 1) db with ⟨e, h1, h2⟩ | ⟨a, vec, ha, hins, h1, h2⟩
        · left
          refine ⟨e, ?_, ?_⟩ <;>
            simp [ingestLoop, he, hat, h1, h2]
        · right
          refine ⟨a, vec, ha, hins, ?_, ?_⟩ <;>
            simp [ingestLoop, he, hat, h1, h2]
    | some vec =>
      by_cases hok : o.insertOk attempt
      · right
        refine ⟨attempt, vec, he, hok, ?_, ?_⟩ <;>
          simp [ingestLoop, he, hok]
      · by_cases hat : attempt = maxAttempts
        · subst hat
          left
          refine ⟨ingestFailureMsg, ?_, ?_⟩ <;>
            simp [ingestLoop, he, hok]
        · rcases ih (attempt + 1) db with ⟨e, h1, h2⟩ | ⟨a, vec2, ha, hins, h1, h2⟩
          · left
            refine ⟨e, ?_, ?_⟩ <;>
              simp [ingestLoop, he, hok, hat, h1, h2]
          · right
            refine ⟨a, vec2, ha, hins, ?_, ?_⟩ <;>
              simp [ingestLoop, he, hok, hat, h1, h2]

/-- C2: ingestion is all-or-nothing.  For every oracle — that is, every
pattern of embedding failures and (atomic) storage-write failures across the
three attempts — the call either surfaces an error with the `embeddings`
table left exactly as it was (no chunk of this call remains visible), or
succeeds appending in one block exactly one row per chunk of this call.  The
rollback demanded by the spec is realised by PostgreSQL's single-statement
atomicity: the code issues one multi-row `INSERT`, so a failed write inserts
no rows. -/
theorem ingest_all_or_nothing (o : IngestOracle) (resourceId : Nat)
    (text : List Char) (title : Option (List Char)) (order : Option Nat)
    (sourceUrl : Option (List Char)) (db : List EmbeddingRow) :
    (∃ e, (ingest o resourceId text title order sourceUrl db).result =
        Except.error e ∧
      (ingest o resourceId text title order sourceUrl db).db = db) ∨
    (∃ a vec, o.embed a = some vec ∧
      (ingest o resourceId text title order sourceUrl db).result =
        Except.ok (chunkText text 900 100).length ∧
      (ingest o resourceId text title order sourceUrl db).db =
        db ++ mkRows resourceId vec (o.idGen a) title order sourceUrl 0
          (chunkText text 900 100) ∧
      (mkRows resourceId vec (o.idGen a) title order sourceUrl 0
          (chunkText text 900 100)).map (fun r => r.content) =
        chunkText text 900 100) := by
  rcases ingestLoop_atomic o resourceId (chunkText text 900 100) title order
    sourceUrl maxAttempts 1 db with ⟨e, h1, h2⟩ | ⟨a, vec, ha, _, h1, h2⟩
  · exact Or.inl ⟨e, h1, h2⟩
  · exact Or.inr ⟨a, vec, ha, h1, h2,
      mkRows_content resourceId vec (o.idGen a) title order sourceUrl 0
        (chunkText text 900 100)⟩

/-- C5: with the storage write always succeeding, the embedding path makes at
most 3 `embedMany` attempts, sleeping `1000ms` then `2000ms` between failed
attempts (base 1s, doubling); three embedding failures fail the whole call
with the error naming the attempt count and leave the table unchanged, while
a success on attempt 1, 2 or 3 makes the call succeed with exactly one row
per chunk appended — a failed attempt never reaches the insert, so no
duplicate rows arise from earlier failures. -/
theorem ingest_embed_retry (o : IngestOracle) (resourceId : Nat)
    (text : List Char) (title : Option (List Char)) (order : Option Nat)
    (sourceUrl : Option (List Char)) (db : List EmbeddingRow)
    (hins : ∀ a, o.insertOk a = true) :
    (ingest o resourceId text title order sourceUrl db).embedCalls ≤ 3 ∧
    (o.embed 1 = none → o.embed 2 = none → o.embed 3 = none →
      (ingest o resourceId text title order sourceUrl db).result =
          Except.error ingestFailureMsg ∧
        (ingest o resourceId text title order sourceUrl db).db = db ∧
        (ingest o resourceId text title order sourceUrl db).delays =
          [1000, 2000] ∧
        (ingest o resourceId text title order sourceUrl db).embedCalls = 3) ∧
    (∀ vec, o.embed 1 = some vec →
      (ingest o resourceId text title order sourceUrl db).result =
          Except.ok (chunkText text 900 100).length ∧
        (ingest o resourceId text title order sourceUrl db).db =
          db ++ mkRows resourceId vec (o.idGen 1) title order sourceUrl 0
            (chunkText text 900 100) ∧
        (ingest o resourceId text title order sourceUrl db).delays = []) ∧
    (∀ vec, o.embed 1 = none → o.embed 2 = some vec →
      (ingest o resourceId text title order sourceUrl db).result =
          Except.ok (chunkText text 900 100).length ∧
        (ingest o resourceId text title order sourceUrl db).db =
          db ++ mkRows resourceId vec (o.idGen 2) title order sourceUrl 0
            (chunkText text 900 100) ∧
        (ingest o resourceId text title order sourceUrl db).delays =
          [1000]) ∧
    (∀ vec, o.embed 1 = none → o.embed 2 = none → o.embed 3 = some vec →
      (ingest o resourceId text title order sourceUrl db).result =
          Except.ok (chunkText text 900 100).length ∧
        (ingest o resourceId text title order sourceUrl db).db =
          db ++ mkRows resourceId vec (o.idGen 3) title order sourceUrl 0
            (chunkText text 900 100) ∧
        (ingest o resourceId text title order sourceUrl db).delays =
          [1000, 2000]) ∧
    (∀ vec a,
      (mkRows resourceId vec (o.idGen a) title order sourceUrl 0
          (chunkText text 900 100)).map (fun r => r.content) =
        chunkText text 900 100) := by
  refine ⟨?_, ?_, ?_, ?_, ?_, ?_⟩
  · cases h1 : o.embed 1 with
    | some v => simp [ingest, ingestLoop, maxAttempts, h1, hins]
    | none =>
      cases h2 : o.embed 2 with
      | some v => simp [ingest, ingestLoop, maxAttempts, h1, h2, hins]
      | none =>
        cases h3 : o.embed 3 with
        | some v => simp [ingest, ingestLoop, maxAttempts, h1, h2, h3, hins]
        | none => simp [ingest, ingestLoop, maxAttempts, h1, h2, h3]
  · intro h1 h2 h3
    refine ⟨?_, ?_, ?_, ?_⟩ <;>
      simp [ingest, ingestLoop, maxAttempts, baseDelayMs, h1, h2, h3]
  · intro vec h1
    refine ⟨?_, ?_, ?_⟩ <;>
      simp [ingest, ingestLoop, maxAttempts, h1, hins]
  · intro vec h1 h2
    refine ⟨?_, ?_, ?_⟩ <;>
      simp [ingest, ingestLoop, maxAttempts, baseDelayMs, h1, h2, hins]
  · intro vec h1 h2 h3
    refine ⟨?_, ?_, ?_⟩ <;>
      simp [ingest, ingestLoop, maxAttempts, baseDelayMs, h1, h2, h3, hins]
  · intro vec a
    exact mkRows_content resourceId vec (o.idGen a) title order sourceUrl 0
      (chunkText text 900 100)

/-- Concrete oracle for the C5 witness: the embedding service fails on
attempts 1 and 2 and succeeds on attempt 3; the storage write always
succeeds. -/
def failTwiceOracle : IngestOracle :=
  ⟨fun a => if a = 3 then some (fun _ => 7) else none,
    fun _ => true, fun _ _ => 0⟩

/-- Witness for C5: two embedding failures then a success on the third
attempt, with delays 1000ms and 2000ms slept in between. -/
theorem ingest_embed_retry_witness :
    (∀ a, failTwiceOracle.insertOk a = true) ∧
    failTwiceOracle.embed 1 = none ∧
    failTwiceOracle.embed 2 = none ∧
    failTwiceOracle.embed 3 = some (fun _ => 7) ∧
    ((ingest failTwiceOracle 5 ("ab".toList) none none none []).result =
        Except.ok (chunkText ("ab".toList) 900 100).length ∧
      (ingest failTwiceOracle 5 ("ab".toList) none none none []).db =
        [] ++ mkRows 5 (fun _ => 7) (failTwiceOracle.idGen 3) none none none 0
          (chunkText ("ab".toList) 900 100) ∧
      (ingest failTwiceOracle 5 ("ab".toList) none none none []).delays =
        [1000, 2000]) :=
  ⟨fun a => rfl, rfl, rfl, rfl,
    (ingest_embed_retry failTwiceOracle 5 ("ab".toList) none none none []
      (fun a => rfl)).2.2.2.2.1 (fun _ => 7) rfl rfl rfl⟩

/-- Concrete oracle for C6: the embedding service always succeeds, the
storage write fails (atomically) on attempt 1 and succeeds from attempt 2
on. -/
def storageFailOnceOracle : IngestOracle :=
  ⟨fun _ => some (fun _ => 7), fun a => decide (a ≠ 1), fun _ _ => 0⟩

/-- C6 counterexample: with the storage write failing on attempt 1, `ingest`
re-attempts the write — two `INSERT` statements are issued, a backoff delay
is slept, and the call returns success — instead of propagating the storage
error to the caller without retrying: the `try` block wraps `db.insert` as
well as `embedMany`, so its `catch` retries storage failures too. -/
theorem ingest_retries_storage_error :
    storageFailOnceOracle.insertOk 1 = false ∧
    (ingest storageFailOnceOracle 5 ("abc".toList) none none none
      []).insertCalls = 2 ∧
    (ingest storageFailOnceOracle 5 ("abc".toList) none none none
      []).result = Except.ok 1 ∧
    (ingest storageFailOnceOracle 5 ("abc".toList) none none none
      []).delays = [1000] :=
  ⟨rfl, rfl, rfl, rfl⟩

/-- C6 (amended): storage write failures go through the same retry loop as
embedding failures: any error raised inside an attempt — a failing `INSERT`
included — is caught, and the write is re-attempted (after re-embedding) on
the next attempt; only after the third failed attempt is an error
propagated, and a failed atomic write leaves no rows behind. -/
theorem ingest_storage_error_policy (o : IngestOracle) (resourceId : Nat)
    (text : List Char) (title : Option (List Char)) (order : Option Nat)
    (sourceUrl : Option (List Char)) (db : List EmbeddingRow)
    (vecs : Nat → Nat → Nat) (hemb : ∀ a, o.embed a = some (vecs a)) :
    (o.insertOk 1 = false → o.insertOk 2 = true →
      (ingest o resourceId text title order sourceUrl db).result =
          Except.ok (chunkText text 900 100).length ∧
        (ingest o resourceId text title order sourceUrl db).insertCalls = 2 ∧
        (ingest o resourceId text title order sourceUrl db).db =
          db ++ mkRows resourceId (vecs 2) (o.idGen 2) title order sourceUrl 0
            (chunkText text 900 100) ∧
        (ingest o resourceId text title order sourceUrl db).delays =
          [1000]) ∧
    ((∀ a, o.insertOk a = false) →
      (ingest o resourceId text title order sourceUrl db).result =
          Except.error ingestFailureMsg ∧
        (ingest o resourceId text title order sourceUrl db).insertCalls = 3 ∧
        (ingest o resourceId text title order sourceUrl db).db = db ∧
        (ingest o resourceId text title order sourceUrl db).delays =
          [1000, 2000]) := by
  constructor
  · intro hf1 hs2
    refine ⟨?_, ?_, ?_, ?_⟩ <;>
      simp [ingest, ingestLoop, maxAttempts, baseDelayMs, hemb, hf1, hs2]
  · intro hfail
    refine ⟨?_, ?_, ?_, ?_⟩ <;>
      simp [ingest, ingestLoop, maxAttempts, baseDelayMs, hemb, hfail]

/-- Witness for the amended C6: embedding always succeeds, the write fails on
attempt 1 and succeeds on attempt 2, so ingestion succeeds with two `INSERT`
statements and one backoff delay. -/
theorem ingest_storage_error_policy_witness :
    storageFailOnceOracle.insertOk 1 = false ∧
    storageFailOnceOracle.insertOk 2 = true ∧
    ((ingest storageFailOnceOracle 5 ("abc".toList) none none none
        []).result = Except.ok (chunkText ("abc".toList) 900 100).length ∧
      (ingest storageFailOnceOracle 5 ("abc".toList) none none none
        []).insertCalls = 2 ∧
      (ingest storageFailOnceOracle 5 ("abc".toList) none none none []).db =
        [] ++ mkRows 5 (fun _ => 7) (storageFailOnceOracle.idGen 2) none none
          none 0 (chunkText ("abc".toList) 900 100) ∧
      (ingest storageFailOnceOracle 5 ("abc".toList) none none none
        []).delays = [1000]) :=
  ⟨rfl, rfl,
    (ingest_storage_error_policy storageFailOnceOracle 5 ("abc".toList) none
      none none [] (fun _ => fun _ => 7) (fun a => rfl)).1 rfl rfl⟩

/-- A row of the retrieval result set: a stored chunk's content together with
the similarity `1 - cosineDistance(embedding, queryVector)` computed for it
by the database engine (`src/unnamed/part_004`, line 342).  The cosine
arithmetic happens inside PostgreSQL and is opaque to the repository code, so
a store is modelled as the list of its rows in table order, each already
carrying its similarity score for the query at hand. -/
structure ScoredRow where
  content : String
  similarity : ℚ
  deriving DecidableEq, Repr

/-- Insertion step of the `ORDER BY similarity DESC` model: the new row goes
before the first earlier row with strictly smaller similarity and after all
rows with greater-or-equal similarity, so equal-similarity rows keep their
original relative order. -/
def insertDescBySim (r : ScoredRow) : List ScoredRow → List ScoredRow
  | [] => [r]
  | x :: xs =>
    if x.similarity < r.similarity then r :: x :: xs
    else x :: insertDescBySim r xs

/-- Stable descending sort by similarity: one particular realisation of the
SQL `ORDER BY similarity DESC`.  The source query has no secondary sort key
and PostgreSQL leaves the relative order of equal keys unspecified, so this
deterministic realisation is used only for conclusions that do not depend on
the order of equal-similarity rows; the query itself is modelled by the
relation `IsQueryResult` below. -/
def orderBySimDesc (l : List ScoredRow) : List ScoredRow :=
  l.foldl (fun acc r => insertDescBySim r acc) []

/-- Model of `findRelevantContent(userQuery)` (`src/unnamed/part_004`, lines
340-352): `SELECT content, similarity FROM embeddings WHERE similarity > 0.3
ORDER BY similarity DESC LIMIT 4`.  The query string enters only through the
rows' precomputed similarity scores, so the function is parameterized by the
scored store. -/
def findRelevantContent (store : List ScoredRow) : List ScoredRow :=
  (orderBySimDesc (store.filter (fun r => (3 : ℚ)/10 < r.similarity))).take 4

/-- Modelled from the spec: the claimed retrieval contract
`findRelevant(query, topK, minSimilarity)` with tunable `topK` and
`minSimilarity` — discard entries with similarity ≤ `minSimilarity`, rank
descending, truncate to `topK`.  Stated for comparison with the source's
`findRelevantContent`, which has no such parameters. -/
def findRelevantSpec (store : List ScoredRow) (topK : Nat)
    (minSimilarity : ℚ) : List ScoredRow :=
  (orderBySimDesc (store.filter (fun r => minSimilarity < r.similarity))).take
    topK

/-- Descending sortedness by similarity. -/
def SortedDescBySim (l : List ScoredRow) : Prop :=
  List.Pairwise (fun x y => y.similarity ≤ x.similarity) l

lemma mem_insertDescBySim (r y : ScoredRow) :
    ∀ l, y ∈ insertDescBySim r l ↔ y = r ∨ y ∈ l := by
  intro l
  induction l with
  | nil => simp [insertDescBySim]
  | cons x xs ih =>
    by_cases hx : x.similarity < r.similarity
    · simp only [insertDescBySim, if_pos hx, List.mem_cons]
    · simp only [insertDescBySim, if_neg hx, List.mem_cons, ih]
      tauto

lemma sortedDesc_insertDescBySim (r : ScoredRow) :
    ∀ l, SortedDescBySim l → SortedDescBySim (insertDescBySim r l) := by
  intro l
  induction l with
  | nil =>
    intro _
    simp [insertDescBySim, SortedDescBySim]
  | cons x xs ih =>
    intro h
    have hx1 : ∀ y ∈ xs, y.similarity ≤ x.similarity :=
      fun y hy => List.rel_of_pairwise_cons h hy
    have hxs : SortedDescBySim xs := h.of_cons
    by_cases hx : x.similarity < r.similarity
    · rw [insertDescBySim, if_pos hx]
      apply List.Pairwise.cons
      · intro y hy
        rcases List.mem_cons.mp hy with hyx | hyxs
        · rw [hyx]; exact le_of_lt hx
        · exact le_trans (hx1 y hyxs) (le_of_lt hx)
      · exact h
    · rw [insertDescBySim, if_neg hx]
      apply List.Pairwise.cons
      · intro y hy
        rcases (mem_insertDescBySim r y xs).mp hy with hyr | hyxs
        · rw [hyr]; exact le_of_not_lt hx
        · exact hx1 y hyxs
      · exact ih hxs

lemma sortedDesc_foldl_insert :
    ∀ (l acc : List ScoredRow), SortedDescBySim acc →
      SortedDescBySim (l.foldl (fun acc r => insertDescBySim r acc) acc) := by
  intro l
  induction l with
  | nil => intro acc h; exact h
  | cons x xs ih =>
    intro acc h
    exact ih _ (sortedDesc_insertDescBySim x acc h)

lemma sortedDesc_orderBySimDesc (l : List ScoredRow) :
    SortedDescBySim (orderBySimDesc l) :=
  sortedDesc_foldl_insert l [] List.Pairwise.nil

lemma perm_insertDescBySim (r : ScoredRow) :
    ∀ l, List.Perm (insertDescBySim r l) (r :: l) := by
  intro l
  induction l with
  | nil => exact List.Perm.refl _
  | cons x xs ih =>
    by_cases hx : x.similarity < r.similarity
    · rw [insertDescBySim, if_pos hx]
    · rw [insertDescBySim, if_neg hx]
      exact (ih.cons x).trans (List.Perm.swap r x xs)

lemma perm_foldl_insert :
    ∀ (l acc : List ScoredRow),
      List.Perm (l.foldl (fun acc r => insertDescBySim r acc) acc)
        (acc ++ l) := by
  intro l
  induction l with
  | nil => intro acc; simp
  | cons x xs ih =>
    intro acc
    have h1 := ih (insertDescBySim x acc)
    have h2 : List.Perm (insertDescBySim x acc ++ xs) ((x :: acc) ++ xs) :=
      (perm_insertDescBySim x acc).append_right xs
    have h3 : List.Perm (acc ++ x :: xs) (x :: (acc ++ xs)) := List.perm_middle
    exact (h1.trans h2).trans h3.symm

lemma perm_orderBySimDesc (l : List ScoredRow) :
    List.Perm (orderBySimDesc l) l := by
  have := perm_foldl_insert l []
  simpa [orderBySimDesc] using this

/-- The concrete store used against C3's tunability assertion: five rows, all
with similarity 9/10. -/
def storeC3 : List ScoredRow :=
  [⟨"a", 9/10⟩, ⟨"b", 9/10⟩, ⟨"c", 9/10⟩, ⟨"d", 9/10⟩, ⟨"e", 9/10⟩]

/-- C3 counterexample: `findRelevantContent` takes no `topK` or
`minSimilarity` parameters — threshold and limit are hardcoded to `0.3` and
`4` — so for the in-range spec parameters `topK = 10`,
`minSimilarity = 0.3` its output differs from the claimed contract: on a
store of five qualifying rows the code returns 4 rows, never 10's worth. -/
theorem findRelevantContent_not_tunable :
    (findRelevantContent storeC3).length = 4 ∧
    (findRelevantSpec storeC3 10 (3/10)).length = 5 ∧
    findRelevantContent storeC3 ≠ findRelevantSpec storeC3 10 (3/10) := by
  refine ⟨?_, ?_, ?_⟩ <;>
    norm_num [findRelevantContent, findRelevantSpec, storeC3, orderBySimDesc,
      insertDescBySim]

/-- C3 (amended): `findRelevantContent` takes only the query; the similarity
threshold is fixed at `0.3` and the result limit at `4`.  It returns rows of
shape `{content, similarity}` ranked descending by similarity, with every
entry of similarity ≤ 0.3 discarded, the remainder truncated to at most 4
entries (exactly `min 4 (number of qualifying rows)`), and every returned
row drawn from the store. -/
theorem findRelevantContent_contract (store : List ScoredRow) :
    (findRelevantContent store).length =
      min 4 (store.filter (fun r => (3 : ℚ)/10 < r.similarity)).length ∧
    (∀ r ∈ findRelevantContent store, (3 : ℚ)/10 < r.similarity) ∧
    SortedDescBySim (findRelevantContent store) ∧
    (∀ r ∈ findRelevantContent store, r ∈ store) := by
  refine ⟨?_, ?_, ?_, ?_⟩
  · unfold findRelevantContent
    rw [List.length_take,
      (perm_orderBySimDesc (store.filter
        (fun r => (3 : ℚ)/10 < r.similarity))).length_eq]
  · intro r hr
    have h1 : r ∈ orderBySimDesc (store.filter
        (fun r => (3 : ℚ)/10 < r.similarity)) :=
      (List.take_sublist _ _).subset hr
    have h2 : r ∈ store.filter (fun r => (3 : ℚ)/10 < r.similarity) :=
      (perm_orderBySimDesc _).subset h1
    have := List.of_mem_filter h2
    simpa using this
  · exact (sortedDesc_orderBySimDesc _).sublist (List.take_sublist _ _)
  · intro r hr
    have h1 : r ∈ orderBySimDesc (store.filter
        (fun r => (3 : ℚ)/10 < r.similarity)) :=
      (List.take_sublist _ _).subset hr
    have h2 : r ∈ store.filter (fun r => (3 : ℚ)/10 < r.similarity) :=
      (perm_orderBySimDesc _).subset h1
    exact (List.filter_sublist store).subset h2

/-- A row of the `conversations` table (`src/unnamed/part_003`, lines 49-65):
`id varchar(191) PRIMARY KEY`, `user_id uuid NOT NULL` (uuids as numeric
tokens), `title varchar(255)`; the timestamp columns play no role in the
claims and are omitted. -/
structure Conversation where
  id : String
  userId : Nat
  title : Option String
  deriving DecidableEq, Repr

/-- A row of the `messages` table (`src/unnamed/part_003`, lines 9-27):
`id varchar(191) PRIMARY KEY`, `conversation_id varchar(191) NOT NULL
REFERENCES conversations(id) ON DELETE CASCADE`, `role varchar(20) NOT NULL`,
`content text NOT NULL`, and the optional tool payloads; `created_at` plays
no role in the claims and is omitted. -/
structure Message where
  id : String
  conversationId : String
  role : String
  content : String
  toolCalls : Option String
  toolResults : Option String
  deriving DecidableEq, Repr

/-- The chat-history database state: the rows of both tables in insertion
order. -/
structure ChatDb where
  conversations : List Conversation
  messages : List Message
  deriving DecidableEq, Repr

/-- The referential invariant enforced by `messages_conversation_id_fkey`
(`src/lib/supabase/client.ts`, lines 50-53): every message's
`conversation_id` references an existing conversation. -/
def FkHolds (db : ChatDb) : Prop :=
  ∀ m ∈ db.messages, ∃ c ∈ db.conversations, c.id = m.conversationId

/-- Deleting a conversation under the declared `ON DELETE CASCADE`: the
conversation row is removed and every message whose `conversation_id`
references it is removed with it. -/
def deleteConversation (cid : String) (db : ChatDb) : ChatDb :=
  ⟨db.conversations.filter (fun c => c.id ≠ cid),
    db.messages.filter (fun m => m.conversationId ≠ cid)⟩

/-- Inserting a message: PostgreSQL admits the row only when its primary key
is fresh and the `NOT NULL` foreign key references an existing conversation
(`none` models the constraint violation). -/
def insertMessage (m : Message) (db : ChatDb) : Option ChatDb :=
  if (db.messages.all (fun m2 => m2.id ≠ m.id)) &&
      (db.conversations.any (fun c => c.id = m.conversationId)) then
    some ⟨db.conversations, db.messages ++ [m]⟩
  else
    none

/-- Inserting a conversation (fresh primary key required). -/
def insertConversation (c : Conversation) (db : ChatDb) : Option ChatDb :=
  if db.conversations.all (fun c2 => c2.id ≠ c.id) then
    some ⟨db.conversations ++ [c], db.messages⟩
  else
    none

/-- C10: no message row outlives its parent conversation.  Deleting a
conversation cascades to all of its messages — afterwards no message
references the deleted id — and the foreign-key invariant (every remaining
message references an existing conversation) is preserved by conversation
deletion and by both inserts, so it holds in every reachable state. -/
theorem messages_cascade_delete (db : ChatDb) (cid : String) (m : Message)
    (c : Conversation) (hfk : FkHolds db) :
    (∀ m2 ∈ (deleteConversation cid db).messages, m2.conversationId ≠ cid) ∧
    FkHolds (deleteConversation cid db) ∧
    (∀ db2, insertMessage m db = some db2 → FkHolds db2) ∧
    (∀ db2, insertConversation c db = some db2 → FkHolds db2) := by
  refine ⟨?_, ?_, ?_, ?_⟩
  · intro m2 hm2
    have := List.of_mem_filter hm2
    simpa using this
  · intro m2 hm2
    have hne : m2.conversationId ≠ cid := by
      simpa using List.of_mem_filter hm2
    have hmem : m2 ∈ db.messages := List.mem_of_mem_filter hm2
    rcases hfk m2 hmem with ⟨c2, hc2, hcid⟩
    refine ⟨c2, ?_, hcid⟩
    apply List.mem_filter.mpr
    refine ⟨hc2, ?_⟩
    simpa [hcid] using hne
  · intro db2 hdb2
    unfold insertMessage at hdb2
    by_cases hcond : (db.messages.all (fun m2 => m2.id ≠ m.id)) &&
        (db.conversations.any (fun c => c.id = m.conversationId))
    · rw [if_pos hcond] at hdb2
      have hdb2e : ChatDb.mk db.conversations (db.messages ++ [m]) = db2 :=
        Option.some.inj hdb2
      rw [← hdb2e]
      intro m2 hm2
      rcases List.mem_append.mp hm2 with hold | hnew
      · exact hfk m2 hold
      · have hm2m : m2 = m := by simpa using hnew
        rw [hm2m]
      
        have hany := (Bool.and_eq_true _ _).mp hcond |>.2
        rcases List.any_eq_true.mp hany with ⟨c2, hc2, hc2id⟩
        exact ⟨c2, hc2, by simpa using hc2id⟩
    · rw [if_neg hcond] at hdb2
      exact Option.noConfusion hdb2
  · intro db2 hdb2
    unfold insertConversation at hdb2
    by_cases hcond : db.conversations.all (fun c2 => c2.id ≠ c.id)
    · rw [if_pos hcond] at hdb2
      have hdb2e : ChatDb.mk (db.conversations ++ [c]) db.messages = db2 :=
        Option.some.inj hdb2
      rw [← hdb2e]
      intro m2 hm2
      rcases hfk m2 hm2 with ⟨c2, hc2, hcid⟩
      exact ⟨c2, List.mem_append_left _ hc2, hcid⟩
    · rw [if_neg hcond] at hdb2
      exact Option.noConfusion hdb2

/-- Concrete state for the C10 witness: one conversation `"c1"` with one
message. -/
def chatDbW : ChatDb :=
  ⟨[⟨"c1", 0, none⟩], [⟨"m1", "c1", "user", "hi", none, none⟩]⟩

/-- Witness for C10: deleting `"c1"` from the concrete state removes its
message and preserves the foreign-key invariant. -/
theorem messages_cascade_delete_witness :
    FkHolds chatDbW ∧
    (∀ m2 ∈ (deleteConversation "c1" chatDbW).messages,
      m2.conversationId ≠ "c1") ∧
    FkHolds (deleteConversation "c1" chatDbW) :=
  ⟨by unfold FkHolds; decide,
    (messages_cascade_delete chatDbW "c1"
      ⟨"m2", "c1", "user", "x", none, none⟩ ⟨"c2", 1, none⟩
      (by unfold FkHolds; decide)).1,
    (messages_cascade_delete chatDbW "c1"
      ⟨"m2", "c1", "user", "x", none, none⟩ ⟨"c2", 1, none⟩
      (by unfold FkHolds; decide)).2.1⟩


/-- The relational semantics of the source's bare
`ORDER BY similarity DESC LIMIT 4` (`src/unnamed/part_004`, lines 344-349):
`res` is a possible result of the query on `store` iff it is the 4-prefix of
some reordering of the qualifying rows that is descending in similarity.
PostgreSQL guarantees only the ordering property; the query has no secondary
sort key, so the relative order of equal-similarity rows is unspecified and
the query denotes this relation, not a function. -/
def IsQueryResult (store res : List ScoredRow) : Prop :=
  ∃ sorted, List.Perm sorted
      (store.filter (fun r => (3 : ℚ)/10 < r.similarity)) ∧
    SortedDescBySim sorted ∧ res = sorted.take 4

/-- The tie store used against C8: two rows with equal similarity `9/10`. -/
def storeC8 : List ScoredRow := [⟨"a", 9/10⟩, ⟨"b", 9/10⟩]

/-- C8 counterexample: on a store with a similarity tie the bare
`ORDER BY similarity DESC LIMIT 4` query admits two distinct valid results —
the tied rows in either order — because the code supplies no secondary sort
key and PostgreSQL fixes no tie order.  So two executions with identical
inputs and no intervening writes may return different lists, and the
relative order of equal-similarity rows is not fixed by original chunk
order. -/
theorem findRelevant_tie_not_deterministic :
    IsQueryResult storeC8 [⟨"a", 9/10⟩, ⟨"b", 9/10⟩] ∧
    IsQueryResult storeC8 [⟨"b", 9/10⟩, ⟨"a", 9/10⟩] ∧
    ([⟨"a", 9/10⟩, ⟨"b", 9/10⟩] : List ScoredRow) ≠
      [⟨"b", 9/10⟩, ⟨"a", 9/10⟩] := by
  have hf : storeC8.filter (fun r => (3 : ℚ)/10 < r.similarity) =
      [⟨"a", 9/10⟩, ⟨"b", 9/10⟩] := by
    norm_num [storeC8]
  refine ⟨⟨[⟨"a", 9/10⟩, ⟨"b", 9/10⟩], ?_, ?_, rfl⟩,
    ⟨[⟨"b", 9/10⟩, ⟨"a", 9/10⟩], ?_, ?_, rfl⟩, ?_⟩
  · rw [hf]
  · norm_num [SortedDescBySim, List.pairwise_cons]
  · rw [hf]
    exact List.Perm.swap (⟨"a", 9/10⟩ : ScoredRow) ⟨"b", 9/10⟩ []
  · norm_num [SortedDescBySim, List.pairwise_cons]
  · intro h
    have h2 := congrArg (List.map (fun r => r.content)) h
    simp only [List.map_cons, List.map_nil] at h2
    exact absurd h2 (by decide)

/-- Strict-or-equal descending comparison on scored rows, used to derive
uniqueness of a descending reordering when all similarities are distinct. -/
def SimAfter (x y : ScoredRow) : Prop :=
  y.similarity < x.similarity ∨ x = y

instance : IsAntisymm ScoredRow SimAfter := ⟨by
  rintro a b (hab | hab) (hba | hba)
  · exact absurd hba (lt_asymm hab)
  · exact hba.symm
  · exact hab
  · exact hab⟩

/-- C8 (amended): the source retrieval query denotes the relation
`IsQueryResult`, not a function.  Every valid result obeys the query
contract — `min 4 (#qualifying)` rows, each above the `0.3` threshold,
descending in similarity, drawn from the store — and when the qualifying
rows have pairwise distinct similarities the valid result is unique, so two
executions with identical inputs and no intervening writes necessarily
return identical lists.  In the presence of similarity ties neither the code
(no secondary sort key) nor PostgreSQL fixes the tie order, and determinism
genuinely fails, as the counterexample shows. -/
theorem findRelevant_query_result_spec (store res1 res2 : List ScoredRow)
    (h1 : IsQueryResult store res1) (h2 : IsQueryResult store res2)
    (hdist : List.Pairwise (fun x y => x.similarity ≠ y.similarity)
      (store.filter (fun r => (3 : ℚ)/10 < r.similarity))) :
    res1.length =
      min 4 (store.filter (fun r => (3 : ℚ)/10 < r.similarity)).length ∧
    (∀ r ∈ res1, (3 : ℚ)/10 < r.similarity) ∧
    SortedDescBySim res1 ∧
    (∀ r ∈ res1, r ∈ store) ∧
    res1 = res2 := by
  rcases h1 with ⟨s1, hp1, hs1, he1⟩
  rcases h2 with ⟨s2, hp2, hs2, he2⟩
  refine ⟨?_, ?_, ?_, ?_, ?_⟩
  · rw [he1, List.length_take, hp1.length_eq]
  · intro r hr
    rw [he1] at hr
    have hmem : r ∈ s1 := (List.take_sublist _ _).subset hr
    have hmem2 := hp1.subset hmem
    have := List.of_mem_filter hmem2
    simpa using this
  · rw [he1]
    exact hs1.sublist (List.take_sublist _ _)
  · intro r hr
    rw [he1] at hr
    have hmem : r ∈ s1 := (List.take_sublist _ _).subset hr
    have hmem2 := hp1.subset hmem
    exact (List.filter_sublist store).subset hmem2
  · have hsymm : Symmetric (fun x y : ScoredRow =>
        x.similarity ≠ y.similarity) := fun x y hxy => hxy.symm
    have hd1 : List.Pairwise (fun x y : ScoredRow =>
        x.similarity ≠ y.similarity) s1 :=
      (hp1.pairwise_iff (fun hab => hsymm hab)).mpr hdist
    have hd2 : List.Pairwise (fun x y : ScoredRow =>
        x.similarity ≠ y.similarity) s2 :=
      (hp2.pairwise_iff (fun hab => hsymm hab)).mpr hdist
    have hstrict1 : List.Pairwise
        (fun x y : ScoredRow => y.similarity < x.similarity) s1 :=
      (List.Pairwise.and hs1 hd1).imp
        (fun hab => lt_of_le_of_ne hab.1 (Ne.symm hab.2))
    have hstrict2 : List.Pairwise
        (fun x y : ScoredRow => y.similarity < x.similarity) s2 :=
      (List.Pairwise.and hs2 hd2).imp
        (fun hab => lt_of_le_of_ne hab.1 (Ne.symm hab.2))
    have hsort1 : List.Sorted SimAfter s1 :=
      hstrict1.imp (fun hab => Or.inl hab)
    have hsort2 : List.Sorted SimAfter s2 :=
      hstrict2.imp (fun hab => Or.inl hab)
    have hseq : s1 = s2 :=
      List.eq_of_perm_of_sorted (hp1.trans hp2.symm) hsort1 hsort2
    rw [he1, he2, hseq]

/-- Tie-free store for the C8 witness: similarities `9/10` and `1/2` qualify
and are distinct; `1/5` falls below the threshold. -/
def storeC8W : List ScoredRow := [⟨"a", 9/10⟩, ⟨"b", 1/2⟩, ⟨"c", 1/5⟩]

/-- Witness for the amended C8 on the tie-free concrete store: the valid
query result `[("a", 9/10), ("b", 1/2)]` is descending, and any two valid
results coincide. -/
theorem findRelevant_query_result_spec_witness :
    IsQueryResult storeC8W [⟨"a", 9/10⟩, ⟨"b", 1/2⟩] ∧
    List.Pairwise (fun x y => x.similarity ≠ y.similarity)
      (storeC8W.filter (fun r => (3 : ℚ)/10 < r.similarity)) ∧
    SortedDescBySim ([⟨"a", 9/10⟩, ⟨"b", 1/2⟩] : List ScoredRow) ∧
    ([⟨"a", 9/10⟩, ⟨"b", 1/2⟩] : List ScoredRow) =
      [⟨"a", 9/10⟩, ⟨"b", 1/2⟩] := by
  have hf : storeC8W.filter (fun r => (3 : ℚ)/10 < r.similarity) =
      [⟨"a", 9/10⟩, ⟨"b", 1/2⟩] := by
    norm_num [storeC8W]
  have hq : IsQueryResult storeC8W [⟨"a", 9/10⟩, ⟨"b", 1/2⟩] := by
    refine ⟨[⟨"a", 9/10⟩, ⟨"b", 1/2⟩], ?_, ?_, rfl⟩
    · rw [hf]
    · norm_num [SortedDescBySim, List.pairwise_cons]
  have hd : List.Pairwise (fun x y => x.similarity ≠ y.similarity)
      (storeC8W.filter (fun r => (3 : ℚ)/10 < r.similarity)) := by
    rw [hf]
    norm_num [List.pairwise_cons]
  exact ⟨hq, hd,
    (findRelevant_query_result_spec storeC8W _ _ hq hq hd).2.2.1,
    (findRelevant_query_result_spec storeC8W _ _ hq hq hd).2.2.2.2⟩

end Sofia
